import Mathlib

/-!
# Endpoint metadata codec of `api.go`

A shallow embedding of `src/api.go` (package `api`): the `Endpoint` record, the
helpers `strip` and `slice`, the codec `Encode` / `Decode` and the validator
`Validate`, followed by the properties of the codec and of the validator.

Modelling conventions.

* A Go `string` is the list of its Unicode code points (`GoString`); the strings
  handled here are valid UTF-8, on which the byte-level functions of package
  `strings` and this code-point reading agree (the separator `,` is ASCII).
* A Go `[]string` is a `List GoString`; a nil slice and an empty slice have the
  same entries and both are the empty list (the code never compares a slice
  with nil).
* A pointer `*Endpoint` and a map `map[string]string` that may be nil are an
  `Option`; `none` is nil.
* A `map[string]string` is an association list, a key being looked up from the
  front; `mapIndex m k` is the Go expression `m[k]`, the empty string for a
  missing key.
* `regexp.CompilePOSIX` belongs to the Go standard library; `Validate` takes it
  as the parameter `compilePOSIX`.
* `server.HandlerOption` and `server.EndpointMetadata` belong to go-micro; an
  option is recorded by the two arguments `server.EndpointMetadata` was called
  with, the endpoint name and the metadata map.
* A function that can panic returns an `Except GoPanic`; the pointer receiver
  `*HttpHandlers` is an `Option HttpHandlers`, and a method on it returns the
  new content of the collection it points to.
-/

namespace Api

/-! ## The parts of the Go standard library that the code calls -/

/-- A Go string, read as its sequence of code points. -/
abbrev GoString := List Char

/-- The predicate `unicode.IsSpace`: the code points with the Unicode property
White_Space (tab, line feed, vertical tab, form feed, carriage return, space,
U+0085, U+00A0, U+1680, U+2000 to U+200A, U+2028, U+2029, U+202F, U+205F, U+3000). -/
def unicodeIsSpace (r : Char) : Bool :=
  let n := r.toNat
  (0x09 ≤ n && n ≤ 0x0D) || n == 0x20 || n == 0x85 || n == 0xA0 || n == 0x1680 ||
  (0x2000 ≤ n && n ≤ 0x200A) || n == 0x2028 || n == 0x2029 || n == 0x202F ||
  n == 0x205F || n == 0x3000

/-- The function `strings.TrimSpace`: the string without its leading and its
trailing white space. -/
def stringsTrimSpace (s : GoString) : GoString :=
  ((s.dropWhile unicodeIsSpace).reverse.dropWhile unicodeIsSpace).reverse

/-- The function `strings.Split(s, sep)` for a separator of one character: the
pieces of `s` between the occurrences of `sep`, one more piece than there are
occurrences (so the empty string has the one piece `""`). -/
def stringsSplit (s : GoString) (sep : Char) : List GoString :=
  match s with
  | [] => [[]]
  | c :: cs =>
    if c = sep then [] :: stringsSplit cs sep
    else
      match stringsSplit cs sep with
      | [] => [[c]]
      | p :: ps => (c :: p) :: ps

/-- The function `strings.Join(elems, sep)`: the elements in a row with `sep`
between consecutive ones; the empty string for no element. -/
def stringsJoin (elems : List GoString) (sep : GoString) : GoString :=
  match elems with
  | [] => []
  | [a] => a
  | a :: b :: rest => a ++ sep ++ stringsJoin (b :: rest) sep

/-- A Go `error` value as `Validate` can return it: either made by
`errors.New` with a message, or the error returned by `regexp.CompilePOSIX`
(of the library's own error type, a parameter here). -/
inductive GoError (ε : Type) where
  | errorsNew (msg : String) : GoError ε
  | regexp (err : ε) : GoError ε
deriving DecidableEq

/-! ## The data model -/

/-- The struct `Endpoint`: a mapping between an RPC method and HTTP endpoint. -/
structure Endpoint where
  /-- RPC Method e.g. Greeter.Hello -/
  Name : GoString
  /-- Description e.g what's this endpoint for -/
  Description : GoString
  /-- API Handler e.g rpc, proxy -/
  Handler : GoString
  /-- HTTP Host e.g example.com -/
  Host : List GoString
  /-- HTTP Methods e.g GET, POST -/
  Method : List GoString
  /-- HTTP Path e.g /greeter. Expect POSIX regex -/
  Path : List GoString
deriving DecidableEq

/-- A non-nil `map[string]string`, as the list of its key and value pairs. -/
abbrev Metadata := List (GoString × GoString)

/-- The Go index expression `m[k]` on a `map[string]string`: the value stored
under `k`, or the empty string when `k` is not a key. -/
def mapIndex (m : Metadata) (k : GoString) : GoString :=
  match m.lookup k with
  | some v => v
  | none => []

/-- The keys of a map. -/
def mapKeys (m : Metadata) : List GoString := m.map Prod.fst

/-! ## The functions of `api.go` -/

/-- The function `strip`. -/
def strip (s : GoString) : GoString := stringsTrimSpace s

/-- The function `slice`: the loop over the pieces of `strings.Split(s, ",")`
appends to `sl` each piece that is non-empty once stripped. -/
def slice (s : GoString) : List GoString :=
  (stringsSplit s ',').foldl
    (fun sl p => let str := strip p; if str.length > 0 then sl ++ [str] else sl) []

/-- The function `Encode`: encodes an endpoint to endpoint metadata. -/
def Encode (e : Option Endpoint) : Option Metadata :=
  match e with
  | none => none
  | some e =>
    some [ ("endpoint".toList, e.Name),
           ("description".toList, e.Description),
           ("method".toList, stringsJoin e.Method ",".toList),
           ("path".toList, stringsJoin e.Path ",".toList),
           ("host".toList, stringsJoin e.Host ",".toList),
           ("handler".toList, e.Handler) ]

/-- The function `Decode`: decodes endpoint metadata into an endpoint. -/
def Decode (e : Option Metadata) : Option Endpoint :=
  match e with
  | none => none
  | some e =>
    some { Name := mapIndex e "endpoint".toList
           Description := mapIndex e "description".toList
           Method := slice (mapIndex e "method".toList)
           Path := slice (mapIndex e "path".toList)
           Host := slice (mapIndex e "host".toList)
           Handler := mapIndex e "handler".toList }

/-- The loop `for _, p := range e.Path` of `Validate`: each entry is compiled in
turn and the first compiler error is returned at once; `none` when the loop runs
to its end. -/
def rangePath {ε ρ : Type} (compilePOSIX : GoString → Except ε ρ) :
    List GoString → Option ε
  | [] => none
  | p :: ps =>
    match compilePOSIX p with
    | .error err => some err
    | .ok _ => rangePath compilePOSIX ps

/-- The function `Validate`: validates an endpoint; `none` is the nil error. -/
def Validate {ε ρ : Type} (compilePOSIX : GoString → Except ε ρ)
    (e : Option Endpoint) : Option (GoError ε) :=
  match e with
  | none => some (.errorsNew "endpoint is nil")
  | some e =>
    if e.Name.length = 0 then some (.errorsNew "name required")
    else
      match rangePath compilePOSIX e.Path with
      | some err => some (.regexp err)
      | none =>
        if e.Handler.length = 0 then some (.errorsNew "invalid handler")
        else none

/-- A runtime panic of Go. -/
inductive GoPanic where
  | nilPointerDereference : GoPanic
deriving DecidableEq

/-- A `server.HandlerOption` of go-micro as this package makes them: the value
`server.EndpointMetadata(name, md)`, which attaches the metadata map `md` to
the handler registration under the endpoint name `name`. -/
structure HandlerOption where
  /-- The endpoint name the metadata is attached under. -/
  name : GoString
  /-- The attached metadata map. -/
  md : Option Metadata
deriving DecidableEq

/-- The function `server.EndpointMetadata` of go-micro. -/
def serverEndpointMetadata (name : GoString) (md : Option Metadata) : HandlerOption :=
  { name := name, md := md }

/-- The function `WithEndpoint`: the argument `e.Name` dereferences `e`, a
panic when `e` is nil. -/
def WithEndpoint (e : Option Endpoint) : Except GoPanic HandlerOption :=
  match e with
  | none => .error .nilPointerDereference
  | some v => .ok (serverEndpointMetadata v.Name (Encode e))

/-- The constant `RPCHANDLER`. -/
def RPCHANDLER : GoString := "rpc".toList

/-- The function `POST`. -/
def POST (path : GoString) (name : GoString) : Except GoPanic HandlerOption :=
  WithEndpoint (some
    { Name := name, Path := [path], Method := ["POST".toList], Handler := RPCHANDLER,
      Description := [], Host := [] })

/-- The function `PATCH`. -/
def PATCH (path : GoString) (name : GoString) : Except GoPanic HandlerOption :=
  WithEndpoint (some
    { Name := name, Path := [path], Method := ["PATCH".toList], Handler := RPCHANDLER,
      Description := [], Host := [] })

/-- The function `PUT`. -/
def PUT (path : GoString) (name : GoString) : Except GoPanic HandlerOption :=
  WithEndpoint (some
    { Name := name, Path := [path], Method := ["PUT".toList], Handler := RPCHANDLER,
      Description := [], Host := [] })

/-- The function `GET`. -/
def GET (path : GoString) (name : GoString) : Except GoPanic HandlerOption :=
  WithEndpoint (some
    { Name := name, Path := [path], Method := ["GET".toList], Handler := RPCHANDLER,
      Description := [], Host := [] })

/-- The function `DELETE`. -/
def DELETE (path : GoString) (name : GoString) : Except GoPanic HandlerOption :=
  WithEndpoint (some
    { Name := name, Path := [path], Method := ["DELETE".toList], Handler := RPCHANDLER,
      Description := [], Host := [] })

/-- The type `HttpHandlers`, a slice of handler options. -/
abbrev HttpHandlers := List HandlerOption

/-- The function `NewHttpRouters`: an empty collection. -/
def NewHttpRouters : HttpHandlers := []

/-- The method `(r *HttpHandlers) POST`. When `r` is nil the guarded statement
`*r = make(...)` writes through the nil pointer, a panic; otherwise the option
is appended to `*r`. -/
def HttpHandlers.POST (r : Option HttpHandlers) (path : GoString) (name : GoString) :
    Except GoPanic HttpHandlers :=
  match r with
  | none => .error .nilPointerDereference
  | some l =>
    match Api.POST path name with
    | .error p => .error p
    | .ok o => .ok (l ++ [o])

/-- The method `(r *HttpHandlers) GET`, as `POST`. -/
def HttpHandlers.GET (r : Option HttpHandlers) (path : GoString) (name : GoString) :
    Except GoPanic HttpHandlers :=
  match r with
  | none => .error .nilPointerDereference
  | some l =>
    match Api.GET path name with
    | .error p => .error p
    | .ok o => .ok (l ++ [o])

/-- The method `(r *HttpHandlers) PUT`, as `POST`. -/
def HttpHandlers.PUT (r : Option HttpHandlers) (path : GoString) (name : GoString) :
    Except GoPanic HttpHandlers :=
  match r with
  | none => .error .nilPointerDereference
  | some l =>
    match Api.PUT path name with
    | .error p => .error p
    | .ok o => .ok (l ++ [o])

/-- The method `(r *HttpHandlers) PATCH`, as `POST`. -/
def HttpHandlers.PATCH (r : Option HttpHandlers) (path : GoString) (name : GoString) :
    Except GoPanic HttpHandlers :=
  match r with
  | none => .error .nilPointerDereference
  | some l =>
    match Api.PATCH path name with
    | .error p => .error p
    | .ok o => .ok (l ++ [o])

/-- The method `(r *HttpHandlers) DELETE`, as `POST`. -/
def HttpHandlers.DELETE (r : Option HttpHandlers) (path : GoString) (name : GoString) :
    Except GoPanic HttpHandlers :=
  match r with
  | none => .error .nilPointerDereference
  | some l =>
    match Api.DELETE path name with
    | .error p => .error p
    | .ok o => .ok (l ++ [o])

/-! ## Vocabulary of the properties -/

/-- The five verbs, each with its builder function and its method on the
option collection. -/
def verbBuilders : List (GoString ×
    (GoString → GoString → Except GoPanic HandlerOption) ×
    (Option HttpHandlers → GoString → GoString → Except GoPanic HttpHandlers)) :=
  [ ("GET".toList, GET, HttpHandlers.GET),
    ("POST".toList, POST, HttpHandlers.POST),
    ("PUT".toList, PUT, HttpHandlers.PUT),
    ("PATCH".toList, PATCH, HttpHandlers.PATCH),
    ("DELETE".toList, DELETE, HttpHandlers.DELETE) ]

/-- The endpoint `Endpoint{Name: name, Path: []string{path}, Method:
[]string{verb}, Handler: "rpc"}`. -/
def verbEndpoint (verb path name : GoString) : Endpoint :=
  { Name := name, Description := [], Handler := "rpc".toList,
    Host := [], Method := [verb], Path := [path] }

/-- A string has no leading and no trailing white space: its first and its last
character, when it has any, are not white space. -/
def NoSurroundingSpace (x : GoString) : Prop :=
  x.head?.any unicodeIsSpace = false ∧ x.getLast?.any unicodeIsSpace = false

instance (x : GoString) : Decidable (NoSurroundingSpace x) := by
  unfold NoSurroundingSpace
  infer_instance

/-- The entries of a sequence field once each is trimmed of surrounding white
space and the entries that are then empty are removed, in the original order. -/
def trimmedEntries (xs : List GoString) : List GoString :=
  (xs.map stringsTrimSpace).filter (fun p => p ≠ [])

/-- The elements `xs` decoded from the value `v` of a sequence key: with
`pieces` the comma-separated pieces of `v` (they join back to `v` with `,`
and none contains a comma), `xs` is, in the order of the pieces, the trimmed
form of each piece that is not white space only (so an empty piece, as a
leading, trailing or repeated comma makes, gives no element), and each element
is non-empty, without surrounding white space and without comma. -/
def SlicedFrom (v : GoString) (xs : List GoString) : Prop :=
  stringsJoin (stringsSplit v ',') [','] = v ∧
  (∀ p ∈ stringsSplit v ',', ',' ∉ p) ∧
  xs = ((stringsSplit v ',').filter (fun p => !p.all unicodeIsSpace)).map stringsTrimSpace ∧
  ∀ x ∈ xs, x ≠ [] ∧ NoSurroundingSpace x ∧ ',' ∉ x

/-! ## Sample inputs -/

/-- A stand-in for `regexp.CompilePOSIX` at which the statements on `Validate`
are instantiated: as the library does, it rejects the pattern `(` (a missing
closing parenthesis); it accepts every other pattern. -/
def sampleCompilePOSIX (p : GoString) : Except String Unit :=
  if p = "(".toList then .error "missing closing )" else .ok ()

/-- An endpoint whose sequence entries carry white space and empty entries. -/
def sampleEndpoint : Endpoint :=
  { Name := "Greeter.Hello".toList
    Description := "says hello".toList
    Handler := "rpc".toList
    Host := [" example.com ".toList, "".toList]
    Method := ["GET".toList, " POST".toList]
    Path := ["/greeter".toList, "  ".toList, "/hello ".toList] }

/-- An endpoint with several entries in each sequence field, all non-empty and
without surrounding white space. -/
def cleanEndpoint : Endpoint :=
  { Name := "Greeter.Hello".toList
    Description := "says hello".toList
    Handler := "rpc".toList
    Host := ["example.com".toList, "example.org".toList]
    Method := ["GET".toList, "POST".toList]
    Path := ["/greeter".toList, "/hello".toList, "/bye".toList] }

/-- The endpoint `Endpoint{Name: "X", Handler: "rpc", Path: []string{"("}}`. -/
def badPathEndpoint : Endpoint :=
  { Name := "X".toList, Description := [], Handler := "rpc".toList,
    Host := [], Method := [], Path := ["(".toList] }

/-- The endpoint `Endpoint{Name: "", Handler: "rpc"}`. -/
def noNameEndpoint : Endpoint :=
  { Name := [], Description := [], Handler := "rpc".toList,
    Host := [], Method := [], Path := [] }

/-- The endpoint `Endpoint{Name: "X", Handler: ""}`. -/
def noHandlerEndpoint : Endpoint :=
  { Name := "X".toList, Description := [], Handler := [],
    Host := [], Method := [], Path := [] }

/-- The endpoint `Endpoint{Name: "X", Handler: "rpc", Method: []string{" GET "}}`. -/
def paddedMethodEndpoint : Endpoint :=
  { Name := "X".toList, Description := [], Handler := "rpc".toList,
    Host := [], Method := [" GET ".toList], Path := [] }

/-- The endpoint `Endpoint{Name: "Greeter.Hello", Path: []string{"/greeter/"},
Method: []string{"GET"}, Handler: "rpc"}`. -/
def greeterEndpoint : Endpoint :=
  { Name := "Greeter.Hello".toList, Description := [], Handler := "rpc".toList,
    Host := [], Method := ["GET".toList], Path := ["/greeter/".toList] }

/-- The endpoint `Endpoint{Name: "X", Handler: "rpc", Path: []string{"a,b"}}`. -/
def commaPathEndpoint : Endpoint :=
  { Name := "X".toList, Description := [], Handler := "rpc".toList,
    Host := [], Method := [], Path := ["a,b".toList] }

/-- The endpoint `Endpoint{Name: "X", Handler: "rpc", Path: []string{"a", "b"}}`. -/
def splitPathEndpoint : Endpoint :=
  { Name := "X".toList, Description := [], Handler := "rpc".toList,
    Host := [], Method := [], Path := ["a".toList, "b".toList] }

/-- The endpoint `sampleEndpoint` with a misspelled verb, a malformed host and
another description. -/
def oddMethodHostEndpoint : Endpoint :=
  { sampleEndpoint with
    Description := [], Method := ["GETT".toList], Host := ["not a host!".toList] }

/-! ## Lemmas on the library functions -/

theorem stringsSplit_ne_nil (s : GoString) (sep : Char) : stringsSplit s sep ≠ [] := by
  cases s with
  | nil => simp [stringsSplit]
  | cons c cs =>
    unfold stringsSplit
    split
    · simp
    · split <;> simp

theorem stringsSplit_cons_sep (cs : GoString) (sep : Char) :
    stringsSplit (sep :: cs) sep = [] :: stringsSplit cs sep := by
  simp [stringsSplit]

theorem stringsSplit_cons_other (c : Char) (cs : GoString) (sep : Char) (h : c ≠ sep) :
    ∃ p ps, stringsSplit cs sep = p :: ps ∧ stringsSplit (c :: cs) sep = (c :: p) :: ps := by
  cases hs : stringsSplit cs sep with
  | nil => exact absurd hs (stringsSplit_ne_nil cs sep)
  | cons p ps =>
    refine ⟨p, ps, rfl, ?_⟩
    rw [stringsSplit, if_neg h, hs]

/-- Joining the pieces of a split with the separator gives the string back. -/
theorem stringsJoin_stringsSplit (s : GoString) (sep : Char) :
    stringsJoin (stringsSplit s sep) [sep] = s := by
  induction s with
  | nil => simp [stringsSplit, stringsJoin]
  | cons c cs ih =>
    by_cases h : c = sep
    · subst h
      rw [stringsSplit_cons_sep]
      cases hs : stringsSplit cs c with
      | nil => exact absurd hs (stringsSplit_ne_nil cs c)
      | cons p ps =>
        rw [hs] at ih
        simp [stringsJoin, ih]
    · obtain ⟨p, ps, hs, hc⟩ := stringsSplit_cons_other c cs sep h
      rw [hc]
      rw [hs] at ih
      cases ps with
      | nil => simpa [stringsJoin] using ih
      | cons q qs =>
        simp only [stringsJoin] at ih ⊢
        simp [ih]

/-- No piece of a split contains the separator. -/
theorem not_mem_of_mem_stringsSplit (s : GoString) (sep : Char) :
    ∀ p ∈ stringsSplit s sep, sep ∉ p := by
  induction s with
  | nil => simp [stringsSplit]
  | cons c cs ih =>
    by_cases h : c = sep
    · subst h
      rw [stringsSplit_cons_sep]
      intro p hp
      rcases List.mem_cons.mp hp with rfl | hp
      · simp
      · exact ih p hp
    · obtain ⟨p, ps, hs, hc⟩ := stringsSplit_cons_other c cs sep h
      rw [hc]
      rw [hs] at ih
      intro q hq
      rcases List.mem_cons.mp hq with rfl | hq
      · intro hmem
        rcases List.mem_cons.mp hmem with heq | hmem
        · exact h heq.symm
        · exact ih p (List.mem_cons_self _ _) hmem
      · exact ih q (List.mem_cons_of_mem _ hq)

theorem stringsSplit_of_not_mem (a : GoString) (sep : Char) (h : sep ∉ a) :
    stringsSplit a sep = [a] := by
  induction a with
  | nil => simp [stringsSplit]
  | cons c cs ih =>
    have hc : c ≠ sep := fun e => h (e ▸ List.mem_cons_self _ _)
    have hcs : sep ∉ cs := fun e => h (List.mem_cons_of_mem _ e)
    rw [stringsSplit, if_neg hc, ih hcs]

theorem stringsSplit_append_sep (a t : GoString) (sep : Char) (h : sep ∉ a) :
    stringsSplit (a ++ sep :: t) sep = a :: stringsSplit t sep := by
  induction a with
  | nil => simp [stringsSplit]
  | cons c cs ih =>
    have hc : c ≠ sep := fun e => h (e ▸ List.mem_cons_self _ _)
    have hcs : sep ∉ cs := fun e => h (List.mem_cons_of_mem _ e)
    rw [List.cons_append, stringsSplit, if_neg hc, ih hcs]

/-- Splitting a join of separator-free elements gives the elements back, when
there is at least one element. -/
theorem stringsSplit_stringsJoin (xs : List GoString) (sep : Char) (hne : xs ≠ [])
    (h : ∀ p ∈ xs, sep ∉ p) : stringsSplit (stringsJoin xs [sep]) sep = xs := by
  induction xs with
  | nil => exact absurd rfl hne
  | cons a rest ih =>
    cases rest with
    | nil =>
      simp only [stringsJoin]
      exact stringsSplit_of_not_mem a sep (h a (List.mem_cons_self _ _))
    | cons b rest =>
      simp only [stringsJoin, List.append_assoc, List.singleton_append]
      rw [stringsSplit_append_sep a _ sep (h a (List.mem_cons_self _ _))]
      rw [ih (by simp) (fun p hp => h p (List.mem_cons_of_mem _ hp))]

/-- The join of `strings.Join` is the interspersed separator, flattened. -/
theorem stringsJoin_eq_flatten (xs : List GoString) (sep : GoString) :
    stringsJoin xs sep = (xs.intersperse sep).flatten := by
  induction xs with
  | nil => rfl
  | cons a rest ih =>
    cases rest with
    | nil => simp [stringsJoin]
    | cons b rest =>
      simp only [stringsJoin, List.intersperse, List.flatten] at ih ⊢
      rw [ih]
      simp

theorem stringsTrimSpace_eq_rdropWhile (s : GoString) :
    stringsTrimSpace s = (s.dropWhile unicodeIsSpace).rdropWhile unicodeIsSpace := rfl

/-- The trimmed string is a contiguous part of the string: white space only is
cut, on the left and on the right. -/
theorem stringsTrimSpace_decompose (s : GoString) :
    ∃ l r, s = l ++ stringsTrimSpace s ++ r ∧
      (∀ c ∈ l, unicodeIsSpace c = true) ∧ (∀ c ∈ r, unicodeIsSpace c = true) := by
  refine ⟨s.takeWhile unicodeIsSpace,
    (s.dropWhile unicodeIsSpace).rtakeWhile unicodeIsSpace, ?_, ?_, ?_⟩
  · have h : ∀ d : GoString,
        d.rdropWhile unicodeIsSpace ++ d.rtakeWhile unicodeIsSpace = d := by
      intro d
      rw [List.rdropWhile, List.rtakeWhile, ← List.reverse_append,
        List.takeWhile_append_dropWhile, List.reverse_reverse]
    rw [stringsTrimSpace_eq_rdropWhile, List.append_assoc, h, List.takeWhile_append_dropWhile]
  · intro c hc
    exact List.mem_takeWhile_imp hc
  · intro c hc
    exact List.mem_rtakeWhile_imp hc

theorem stringsTrimSpace_sublist (s : GoString) : (stringsTrimSpace s).Sublist s := by
  rw [stringsTrimSpace_eq_rdropWhile]
  exact (List.rdropWhile_prefix _ _).sublist.trans (List.dropWhile_sublist _)

theorem stringsTrimSpace_noSurroundingSpace (s : GoString) :
    NoSurroundingSpace (stringsTrimSpace s) := by
  rw [stringsTrimSpace_eq_rdropWhile]
  constructor
  · by_cases hne : (s.dropWhile unicodeIsSpace).rdropWhile unicodeIsSpace = []
    · simp [hne]
    · have hpre : (s.dropWhile unicodeIsSpace).rdropWhile unicodeIsSpace <+:
          s.dropWhile unicodeIsSpace := List.rdropWhile_prefix _ _
      rw [List.head?_eq_head hne, hpre.head hne]
      simp [List.head_dropWhile_not]
  · by_cases hne : (s.dropWhile unicodeIsSpace).rdropWhile unicodeIsSpace = []
    · simp [hne]
    · rw [List.getLast?_eq_getLast _ hne]
      have h := List.rdropWhile_last_not unicodeIsSpace (s.dropWhile unicodeIsSpace) hne
      simpa using h

theorem stringsTrimSpace_of_noSurroundingSpace (x : GoString) (h : NoSurroundingSpace x) :
    stringsTrimSpace x = x := by
  rw [stringsTrimSpace_eq_rdropWhile]
  have h1 : x.dropWhile unicodeIsSpace = x := by
    cases x with
    | nil => rfl
    | cons c cs =>
      have hc : unicodeIsSpace c = false := by simpa using h.1
      simp [List.dropWhile, hc]
  rw [h1, List.rdropWhile_eq_self_iff]
  intro hl
  have h2 := h.2
  rw [List.getLast?_eq_getLast _ hl] at h2
  simpa using h2

/-- Trimming leaves nothing exactly when the string is white space only. -/
theorem stringsTrimSpace_eq_nil_iff (s : GoString) :
    stringsTrimSpace s = [] ↔ s.all unicodeIsSpace = true := by
  rw [stringsTrimSpace_eq_rdropWhile, List.rdropWhile_eq_nil_iff, List.all_eq_true]
  constructor
  · intro h
    by_cases hne : s.dropWhile unicodeIsSpace = []
    · exact List.dropWhile_eq_nil_iff.mp hne
    · have h1 := List.head_dropWhile_not unicodeIsSpace s hne
      have h2 := h _ (List.head_mem hne)
      rw [h1] at h2
      exact absurd h2 (by simp)
  · intro h
    rw [List.dropWhile_eq_nil_iff.mpr h]
    simp

/-! ## Lemmas on `slice` -/

theorem trimmedEntries_cons (p : GoString) (ps : List GoString) :
    trimmedEntries (p :: ps)
      = if stringsTrimSpace p = [] then trimmedEntries ps
        else stringsTrimSpace p :: trimmedEntries ps := by
  unfold trimmedEntries
  by_cases h : stringsTrimSpace p = []
  · simp [h]
  · simp [h]

theorem slice_foldl (ps acc : List GoString) :
    ps.foldl (fun sl p => let str := strip p; if str.length > 0 then sl ++ [str] else sl) acc
      = acc ++ trimmedEntries ps := by
  induction ps generalizing acc with
  | nil => simp [trimmedEntries]
  | cons p ps ih =>
    rw [List.foldl_cons, ih, trimmedEntries_cons]
    by_cases h : stringsTrimSpace p = []
    · simp [strip, h]
    · have hpos : (stringsTrimSpace p).length > 0 := List.length_pos.mpr h
      simp [strip, h, hpos]

/-- The result of `slice` is the pieces of the split, each trimmed, without the
pieces that are empty once trimmed. -/
theorem slice_eq_trimmedEntries (s : GoString) :
    slice s = trimmedEntries (stringsSplit s ',') := by
  rw [slice, slice_foldl, List.nil_append]

/-- The pieces that survive in `trimmedEntries` are those that are not white
space only. -/
theorem trimmedEntries_eq_filter_map (ps : List GoString) :
    trimmedEntries ps
      = (ps.filter (fun p => !p.all unicodeIsSpace)).map stringsTrimSpace := by
  induction ps with
  | nil => rfl
  | cons p ps ih =>
    rw [trimmedEntries_cons, ih]
    by_cases h : stringsTrimSpace p = []
    · have h2 := (stringsTrimSpace_eq_nil_iff p).mp h
      simp [h, h2]
    · have h2 : ¬ (p.all unicodeIsSpace = true) :=
        fun e => h ((stringsTrimSpace_eq_nil_iff p).mpr e)
      have h3 : p.all unicodeIsSpace = false := by simpa using h2
      rw [if_neg h, List.filter_cons, h3]
      simp

theorem mem_trimmedEntries (ps : List GoString) (x : GoString) (hx : x ∈ trimmedEntries ps) :
    x ≠ [] ∧ NoSurroundingSpace x ∧ ∃ p ∈ ps, x = stringsTrimSpace p := by
  unfold trimmedEntries at hx
  rw [List.mem_filter, List.mem_map] at hx
  obtain ⟨⟨p, hp, rfl⟩, hne⟩ := hx
  exact ⟨by simpa using hne, stringsTrimSpace_noSurroundingSpace p, p, hp, rfl⟩

/-- Decoding the join of comma-free entries: the entries, trimmed, without the
empty ones. -/
theorem slice_stringsJoin (xs : List GoString) (h : ∀ p ∈ xs, ',' ∉ p) :
    slice (stringsJoin xs [',']) = trimmedEntries xs := by
  rw [slice_eq_trimmedEntries]
  by_cases hne : xs = []
  · subst hne
    decide
  · rw [stringsSplit_stringsJoin xs ',' hne h]

theorem slicedFrom_slice (v : GoString) : SlicedFrom v (slice v) := by
  refine ⟨stringsJoin_stringsSplit v ',', not_mem_of_mem_stringsSplit v ',', ?_, ?_⟩
  · rw [slice_eq_trimmedEntries, trimmedEntries_eq_filter_map]
  · intro x hx
    rw [slice_eq_trimmedEntries] at hx
    obtain ⟨hne, hsp, p, hp, rfl⟩ := mem_trimmedEntries _ x hx
    exact ⟨hne, hsp, fun hc =>
      not_mem_of_mem_stringsSplit v ',' p hp ((stringsTrimSpace_sublist p).subset hc)⟩

theorem trimmedEntries_of_clean (xs : List GoString)
    (h : ∀ p ∈ xs, p ≠ [] ∧ NoSurroundingSpace p) : trimmedEntries xs = xs := by
  induction xs with
  | nil => rfl
  | cons p ps ih =>
    have hp := h p (List.mem_cons_self _ _)
    have ht := stringsTrimSpace_of_noSurroundingSpace p hp.2
    rw [trimmedEntries_cons, ht, if_neg hp.1, ih (fun q hq => h q (List.mem_cons_of_mem _ hq))]

/-- The length of a join: the lengths of the elements and one separator less
than there are elements. -/
theorem length_stringsJoin (xs : List GoString) (c : Char) (h : xs ≠ []) :
    (stringsJoin xs [c]).length + 1 = (xs.map List.length).sum + xs.length := by
  induction xs with
  | nil => exact absurd rfl h
  | cons a rest ih =>
    cases rest with
    | nil => simp [stringsJoin]
    | cons b rest =>
      have ih' := ih (by simp)
      simp only [stringsJoin, List.length_append, List.length_singleton, List.map_cons,
        List.sum_cons, List.length_cons, List.length_nil] at ih' ⊢
      omega

theorem trimmedEntries_total_le (xs : List GoString) :
    ((trimmedEntries xs).map List.length).sum + (trimmedEntries xs).length
      ≤ (xs.map List.length).sum + xs.length := by
  induction xs with
  | nil => simp [trimmedEntries]
  | cons p ps ih =>
    have hle := (stringsTrimSpace_sublist p).length_le
    rw [trimmedEntries_cons]
    by_cases h : stringsTrimSpace p = []
    · rw [if_pos h]
      simp only [List.map_cons, List.sum_cons, List.length_cons]
      omega
    · rw [if_neg h]
      simp only [List.map_cons, List.sum_cons, List.length_cons]
      omega

theorem trimmedEntries_eq_of_total (xs : List GoString)
    (h : ((trimmedEntries xs).map List.length).sum + (trimmedEntries xs).length
      = (xs.map List.length).sum + xs.length) : trimmedEntries xs = xs := by
  induction xs with
  | nil => rfl
  | cons p ps ih =>
    have hle := (stringsTrimSpace_sublist p).length_le
    have hps := trimmedEntries_total_le ps
    rw [trimmedEntries_cons] at h ⊢
    by_cases hp : stringsTrimSpace p = []
    · rw [if_pos hp] at h
      simp only [List.map_cons, List.sum_cons, List.length_cons] at h
      omega
    · rw [if_neg hp] at h ⊢
      simp only [List.map_cons, List.sum_cons, List.length_cons] at h
      have h1 : (stringsTrimSpace p).length = p.length := by omega
      have h2 : ((trimmedEntries ps).map List.length).sum + (trimmedEntries ps).length
          = (ps.map List.length).sum + ps.length := by omega
      rw [(stringsTrimSpace_sublist p).eq_of_length h1, ih h2]

/-- The join of the trimmed non-empty entries is the join of the entries as
they are exactly when trimming and dropping change nothing, or the sequence is
the one empty entry (both joins are then the empty string). -/
theorem stringsJoin_trimmedEntries_eq_iff (xs : List GoString) (c : Char) :
    stringsJoin (trimmedEntries xs) [c] = stringsJoin xs [c] ↔
      (∀ p ∈ xs, p ≠ [] ∧ NoSurroundingSpace p) ∨ xs = [[]] := by
  constructor
  · intro h
    by_cases hxs : xs = []
    · left
      intro p hp
      rw [hxs] at hp
      exact absurd hp (List.not_mem_nil p)
    · have hlen := congrArg List.length h
      have hx := length_stringsJoin xs c hxs
      by_cases ht : trimmedEntries xs = []
      · right
        rw [ht] at hlen
        simp only [stringsJoin, List.length_nil] at hlen
        cases xs with
        | nil => exact absurd rfl hxs
        | cons a rest =>
          simp only [List.map_cons, List.sum_cons, List.length_cons] at hx
          have ha : a.length = 0 := by omega
          have hr : rest.length = 0 := by omega
          rw [List.length_eq_zero.mp ha, List.length_eq_zero.mp hr]
      · left
        have htl := length_stringsJoin (trimmedEntries xs) c ht
        have heq : trimmedEntries xs = xs := trimmedEntries_eq_of_total xs (by omega)
        intro p hp
        rw [← heq] at hp
        exact ⟨(mem_trimmedEntries xs p hp).1, (mem_trimmedEntries xs p hp).2.1⟩
  · rintro (h | h)
    · rw [trimmedEntries_of_clean xs h]
    · subst h
      rfl

/-! ## Lemmas on `Validate` -/

theorem rangePath_of_all_ok {ε ρ : Type} (compilePOSIX : GoString → Except ε ρ)
    (ps : List GoString) (h : ∀ p ∈ ps, (compilePOSIX p).isOk = true) :
    rangePath compilePOSIX ps = none := by
  induction ps with
  | nil => rfl
  | cons p ps ih =>
    have hp := h p (List.mem_cons_self _ _)
    cases hc : compilePOSIX p with
    | error err => rw [hc] at hp; exact absurd hp (by simp [Except.isOk, Except.toBool])
    | ok r =>
      rw [rangePath, hc]
      exact ih (fun q hq => h q (List.mem_cons_of_mem _ hq))

theorem rangePath_first_error {ε ρ : Type} (compilePOSIX : GoString → Except ε ρ)
    (pre post : List GoString) (p : GoString) (err : ε)
    (hpre : ∀ q ∈ pre, (compilePOSIX q).isOk = true) (hp : compilePOSIX p = .error err) :
    rangePath compilePOSIX (pre ++ p :: post) = some err := by
  induction pre with
  | nil => rw [List.nil_append, rangePath, hp]
  | cons q qs ih =>
    have hq := hpre q (List.mem_cons_self _ _)
    cases hc : compilePOSIX q with
    | error err => rw [hc] at hq; exact absurd hq (by simp [Except.isOk, Except.toBool])
    | ok r =>
      rw [List.cons_append, rangePath, hc]
      exact ih (fun x hx => hpre x (List.mem_cons_of_mem _ hx))

/-- A sequence with a rejected entry splits at its first rejected entry. -/
theorem exists_first_rejected {ε ρ : Type} (compilePOSIX : GoString → Except ε ρ)
    (ps : List GoString) (h : ∃ q ∈ ps, (compilePOSIX q).isOk = false) :
    ∃ pre p post err, ps = pre ++ p :: post ∧
      (∀ q ∈ pre, (compilePOSIX q).isOk = true) ∧ compilePOSIX p = .error err := by
  induction ps with
  | nil =>
    obtain ⟨q, hq, -⟩ := h
    exact absurd hq (List.not_mem_nil q)
  | cons a rest ih =>
    cases hc : compilePOSIX a with
    | error err =>
      exact ⟨[], a, rest, err, rfl, fun q hq => absurd hq (List.not_mem_nil q), hc⟩
    | ok r =>
      have hrest : ∃ q ∈ rest, (compilePOSIX q).isOk = false := by
        obtain ⟨q, hq, hbad⟩ := h
        rcases List.mem_cons.mp hq with rfl | hq
        · rw [hc] at hbad
          exact absurd hbad (by simp [Except.isOk, Except.toBool])
        · exact ⟨q, hq, hbad⟩
      obtain ⟨pre, p, post, err, hsplit, hpre, hp⟩ := ih hrest
      refine ⟨a :: pre, p, post, err, by rw [hsplit, List.cons_append], ?_, hp⟩
      intro q hq
      rcases List.mem_cons.mp hq with rfl | hq
      · rw [hc]
        rfl
      · exact hpre q hq

/-! ## Lemmas on `Encode` -/

theorem mapIndex_encode (e : Endpoint) :
    ∃ m, Encode (some e) = some m ∧
      mapKeys m = ["endpoint".toList, "description".toList, "method".toList,
        "path".toList, "host".toList, "handler".toList] ∧
      mapIndex m "endpoint".toList = e.Name ∧
      mapIndex m "description".toList = e.Description ∧
      mapIndex m "method".toList = stringsJoin e.Method [','] ∧
      mapIndex m "path".toList = stringsJoin e.Path [','] ∧
      mapIndex m "host".toList = stringsJoin e.Host [','] ∧
      mapIndex m "handler".toList = e.Handler :=
  ⟨_, rfl, rfl, rfl, rfl, rfl, rfl, rfl, rfl⟩

/-! ## The codec: round trip (C1) -/

/-- C1: for a present endpoint `e` in which no Host, Method or Path entry contains
a comma, `Decode (Encode e)` is the present endpoint with the Name, Description
and Handler of `e`, and with each of Host, Method and Path made of the entries of
`e` in their original order, each trimmed of surrounding white space, the entries
that are empty once trimmed being removed. -/
theorem decode_encode_comma_free (e : Endpoint)
    (hHost : ∀ p ∈ e.Host, ',' ∉ p) (hMethod : ∀ p ∈ e.Method, ',' ∉ p)
    (hPath : ∀ p ∈ e.Path, ',' ∉ p) :
    Decode (Encode (some e)) = some
      { Name := e.Name, Description := e.Description, Handler := e.Handler,
        Host := (e.Host.map stringsTrimSpace).filter (fun p => p ≠ []),
        Method := (e.Method.map stringsTrimSpace).filter (fun p => p ≠ []),
        Path := (e.Path.map stringsTrimSpace).filter (fun p => p ≠ []) } := by
  obtain ⟨m, hm, -, h1, h2, h3, h4, h5, h6⟩ := mapIndex_encode e
  rw [hm]
  simp only [Decode, h1, h2, h3, h4, h5, h6]
  rw [slice_stringsJoin _ hHost, slice_stringsJoin _ hMethod, slice_stringsJoin _ hPath]
  rfl

/-- C1 at `sampleEndpoint`: the padded entries come back trimmed, the empty and
the blank entry are gone, the order is kept. -/
theorem decode_encode_comma_free_witness :
    (∀ p ∈ sampleEndpoint.Host, ',' ∉ p) ∧ (∀ p ∈ sampleEndpoint.Method, ',' ∉ p) ∧
    (∀ p ∈ sampleEndpoint.Path, ',' ∉ p) ∧
    Decode (Encode (some sampleEndpoint)) = some
      { Name := "Greeter.Hello".toList, Description := "says hello".toList,
        Handler := "rpc".toList, Host := ["example.com".toList],
        Method := ["GET".toList, "POST".toList],
        Path := ["/greeter".toList, "/hello".toList] } :=
  ⟨by decide, by decide, by decide,
    decode_encode_comma_free sampleEndpoint (by decide) (by decide) (by decide)⟩

/-! ## The validator (C2 to C6) -/

/-- C2: for a present endpoint with a non-empty Name, a non-empty Handler and
every Path entry accepted by the regular-expression compiler, `Validate`
returns no error, whatever Description, Host and Method are. -/
theorem validate_succeeds {ε ρ : Type} (compilePOSIX : GoString → Except ε ρ) (e : Endpoint)
    (hName : e.Name ≠ []) (hHandler : e.Handler ≠ [])
    (hPath : ∀ p ∈ e.Path, (compilePOSIX p).isOk = true) :
    Validate compilePOSIX (some e) = none := by
  have hn : ¬ e.Name.length = 0 := fun h => hName (List.length_eq_zero.mp h)
  have hh : ¬ e.Handler.length = 0 := fun h => hHandler (List.length_eq_zero.mp h)
  simp only [Validate, if_neg hn, if_neg hh, rangePath_of_all_ok compilePOSIX e.Path hPath]

/-- C2 at `sampleEndpoint`, whose three Path entries the sample compiler
accepts. -/
theorem validate_succeeds_witness :
    sampleEndpoint.Name ≠ [] ∧ sampleEndpoint.Handler ≠ [] ∧
    (∀ p ∈ sampleEndpoint.Path, (sampleCompilePOSIX p).isOk = true) ∧
    Validate sampleCompilePOSIX (some sampleEndpoint) = none :=
  ⟨by decide, by decide, by decide,
    validate_succeeds sampleCompilePOSIX sampleEndpoint (by decide) (by decide) (by decide)⟩

/-- C3: for a present endpoint with a non-empty Name and at least one Path
entry that the compiler rejects, Path is `pre`, then an entry `p`, then `post`,
where every entry of `pre` is accepted and `p` is rejected with an error `err`
(so `p` is the first rejected entry), and `Validate` returns `err`; the result
is the same whatever entries stand after `p` in Path, accepted or not, and
whatever Handler is, empty or not. -/
theorem validate_malformed_path {ε ρ : Type} (compilePOSIX : GoString → Except ε ρ)
    (e : Endpoint) (hName : e.Name ≠ [])
    (hPath : ∃ q ∈ e.Path, (compilePOSIX q).isOk = false) :
    ∃ pre p post err, e.Path = pre ++ p :: post ∧
      (∀ q ∈ pre, (compilePOSIX q).isOk = true) ∧ compilePOSIX p = .error err ∧
      Validate compilePOSIX (some e) = some (.regexp err) ∧
      ∀ (post' : List GoString) (handler : GoString),
        Validate compilePOSIX (some { e with Path := pre ++ p :: post', Handler := handler })
          = some (.regexp err) := by
  have hn : ¬ e.Name.length = 0 := fun h => hName (List.length_eq_zero.mp h)
  obtain ⟨pre, p, post, err, hsplit, hpre, hp⟩ := exists_first_rejected compilePOSIX e.Path hPath
  refine ⟨pre, p, post, err, hsplit, hpre, hp, ?_, ?_⟩
  · simp only [Validate, if_neg hn, hsplit,
      rangePath_first_error compilePOSIX pre post p err hpre hp]
  · intro post' handler
    simp only [Validate, if_neg hn,
      rangePath_first_error compilePOSIX pre post' p err hpre hp]

/-- C3 at `Endpoint{Name: "X", Handler: "rpc", Path: []string{"("}}`: the
sample compiler rejects `(`, and `Validate` returns the error of the compiler
for it. -/
theorem validate_malformed_path_witness :
    badPathEndpoint.Name ≠ [] ∧
    (∃ q ∈ badPathEndpoint.Path, (sampleCompilePOSIX q).isOk = false) ∧
    (∃ pre p post err, badPathEndpoint.Path = pre ++ p :: post ∧
      (∀ q ∈ pre, (sampleCompilePOSIX q).isOk = true) ∧ sampleCompilePOSIX p = .error err ∧
      Validate sampleCompilePOSIX (some badPathEndpoint) = some (.regexp err) ∧
      ∀ (post' : List GoString) (handler : GoString),
        Validate sampleCompilePOSIX
          (some { badPathEndpoint with Path := pre ++ p :: post', Handler := handler })
          = some (.regexp err)) ∧
    Validate sampleCompilePOSIX (some badPathEndpoint) = some (.regexp "missing closing )") :=
  ⟨by decide, ⟨"(".toList, by decide, by decide⟩,
    validate_malformed_path sampleCompilePOSIX badPathEndpoint (by decide)
      ⟨"(".toList, by decide, by decide⟩,
    by decide⟩

/-- C4: for a present endpoint with an empty Name, `Validate` returns the error
`name required`, whatever the Path entries, the Handler and the compiler are. -/
theorem validate_missing_name {ε ρ : Type} (compilePOSIX : GoString → Except ε ρ)
    (e : Endpoint) (hName : e.Name = []) :
    Validate compilePOSIX (some e) = some (.errorsNew "name required") := by
  simp [Validate, hName]

/-- C4 at `Endpoint{Name: "", Handler: "rpc"}`. -/
theorem validate_missing_name_witness :
    noNameEndpoint.Name = [] ∧
    Validate sampleCompilePOSIX (some noNameEndpoint) = some (.errorsNew "name required") :=
  ⟨rfl, validate_missing_name sampleCompilePOSIX noNameEndpoint rfl⟩

/-- C5: for a present endpoint with a non-empty Name, every Path entry accepted
by the compiler and an empty Handler, `Validate` returns the error
`invalid handler`. -/
theorem validate_missing_handler {ε ρ : Type} (compilePOSIX : GoString → Except ε ρ)
    (e : Endpoint) (hName : e.Name ≠ [])
    (hPath : ∀ p ∈ e.Path, (compilePOSIX p).isOk = true) (hHandler : e.Handler = []) :
    Validate compilePOSIX (some e) = some (.errorsNew "invalid handler") := by
  have hn : ¬ e.Name.length = 0 := fun h => hName (List.length_eq_zero.mp h)
  simp only [Validate, if_neg hn, rangePath_of_all_ok compilePOSIX e.Path hPath, hHandler,
    List.length_nil, if_true]

/-- C5 at `Endpoint{Name: "X", Handler: ""}`. -/
theorem validate_missing_handler_witness :
    noHandlerEndpoint.Name ≠ [] ∧
    (∀ p ∈ noHandlerEndpoint.Path, (sampleCompilePOSIX p).isOk = true) ∧
    noHandlerEndpoint.Handler = [] ∧
    Validate sampleCompilePOSIX (some noHandlerEndpoint)
      = some (.errorsNew "invalid handler") :=
  ⟨by decide, by decide, rfl,
    validate_missing_handler sampleCompilePOSIX noHandlerEndpoint (by decide) (by decide) rfl⟩

/-- C6: on the nil endpoint `Validate` returns the error `endpoint is nil`; this
error differs from the errors `name required` and `invalid handler` and from
every error of the compiler, and `Validate` returns it for no present
endpoint. -/
theorem validate_nil_endpoint {ε ρ : Type} (compilePOSIX : GoString → Except ε ρ) :
    Validate compilePOSIX none = some (.errorsNew "endpoint is nil") ∧
    (GoError.errorsNew "endpoint is nil" : GoError ε) ≠ .errorsNew "name required" ∧
    (GoError.errorsNew "endpoint is nil" : GoError ε) ≠ .errorsNew "invalid handler" ∧
    (∀ err : ε, (GoError.errorsNew "endpoint is nil" : GoError ε) ≠ .regexp err) ∧
    ∀ e : Endpoint, Validate compilePOSIX (some e) ≠ Validate compilePOSIX none := by
  refine ⟨rfl, ?_, ?_, ?_, ?_⟩
  · intro h
    exact absurd (GoError.errorsNew.inj h) (by decide)
  · intro h
    exact absurd (GoError.errorsNew.inj h) (by decide)
  · intro err h
    cases h
  · intro e
    simp only [Validate]
    split
    · intro h
      exact absurd (GoError.errorsNew.inj (Option.some.inj h)) (by decide)
    · split
      · intro h
        cases h
      · split
        · intro h
          exact absurd (GoError.errorsNew.inj (Option.some.inj h)) (by decide)
        · intro h
          cases h

/-! ## The codec: nil, the mapping of `Encode`, the elements of `Decode` (C7 to C10) -/

/-- C7: `Encode` returns the nil map exactly for the nil endpoint, `Decode`
returns the nil endpoint exactly for the nil map, and `Decode` of the present
map without any key is the present endpoint whose three strings are empty and
whose three sequences are empty. -/
theorem encode_decode_nil :
    (∀ e : Option Endpoint, Encode e = none ↔ e = none) ∧
    (∀ m : Option Metadata, Decode m = none ↔ m = none) ∧
    Decode (some []) = some
      { Name := [], Description := [], Handler := [], Host := [], Method := [], Path := [] } := by
  refine ⟨?_, ?_, by decide⟩
  · intro e
    cases e with
    | none => simp [Encode]
    | some e => simp [Encode]
  · intro m
    cases m with
    | none => simp [Decode]
    | some m => simp [Decode]

/-- C8: for a present endpoint `e`, `Encode e` is a present map whose keys are
exactly `endpoint`, `description`, `method`, `path`, `host` and `handler`, each
once; `endpoint`, `description` and `handler` hold the Name, the Description and
the Handler of `e`; `method`, `path` and `host` hold the entries of Method,
Path and Host in a row with one `,` between consecutive entries (the empty
string for a sequence without entry). -/
theorem encode_mapping (e : Endpoint) :
    ∃ m, Encode (some e) = some m ∧
      (∀ k, k ∈ mapKeys m ↔ k ∈ ["endpoint".toList, "description".toList, "method".toList,
        "path".toList, "host".toList, "handler".toList]) ∧
      (mapKeys m).Nodup ∧
      mapIndex m "endpoint".toList = e.Name ∧
      mapIndex m "description".toList = e.Description ∧
      mapIndex m "handler".toList = e.Handler ∧
      mapIndex m "method".toList = (e.Method.intersperse ",".toList).flatten ∧
      mapIndex m "path".toList = (e.Path.intersperse ",".toList).flatten ∧
      mapIndex m "host".toList = (e.Host.intersperse ",".toList).flatten := by
  obtain ⟨m, hm, hk, h1, h2, h3, h4, h5, h6⟩ := mapIndex_encode e
  refine ⟨m, hm, ?_, ?_, h1, h2, h6, ?_, ?_, ?_⟩
  · intro k
    rw [hk]
  · rw [hk]
    decide
  · rw [h3]
    exact stringsJoin_eq_flatten _ _
  · rw [h4]
    exact stringsJoin_eq_flatten _ _
  · rw [h5]
    exact stringsJoin_eq_flatten _ _

/-- C9 as stated fails at `Endpoint{Name: "X", Handler: "rpc", Method:
[]string{" GET "}}`: the `method` value of its `Encode` is the untrimmed
`" GET "`, while the comma-join of the trimmed non-empty entries is `"GET"`. -/
theorem encode_method_not_trimmed :
    ∃ m, Encode (some paddedMethodEndpoint) = some m ∧
      mapIndex m "method".toList = " GET ".toList ∧
      stringsJoin ((paddedMethodEndpoint.Method.map stringsTrimSpace).filter (fun p => p ≠ []))
        ",".toList = "GET".toList ∧
      mapIndex m "method".toList ≠
        stringsJoin ((paddedMethodEndpoint.Method.map stringsTrimSpace).filter (fun p => p ≠ []))
          ",".toList :=
  ⟨_, rfl, by decide, by decide, by decide⟩

/-- C9, amended: for a present endpoint `e`, each of the `method`, `path` and
`host` values of `Encode e` is the corresponding entries of `e` as they are,
none trimmed and none dropped, in a row with one `,` between consecutive
entries; and that value is the comma-join of the trimmed non-empty entries
exactly when every entry of the field is non-empty and without surrounding
white space, or the field is the one empty entry. -/
theorem encode_sequence_values (e : Endpoint) :
    ∃ m, Encode (some e) = some m ∧
      mapIndex m "method".toList = (e.Method.intersperse ",".toList).flatten ∧
      mapIndex m "path".toList = (e.Path.intersperse ",".toList).flatten ∧
      mapIndex m "host".toList = (e.Host.intersperse ",".toList).flatten ∧
      (mapIndex m "method".toList =
          (((e.Method.map stringsTrimSpace).filter (fun p => p ≠ [])).intersperse
            ",".toList).flatten ↔
        (∀ p ∈ e.Method, p ≠ [] ∧ NoSurroundingSpace p) ∨ e.Method = [[]]) ∧
      (mapIndex m "path".toList =
          (((e.Path.map stringsTrimSpace).filter (fun p => p ≠ [])).intersperse
            ",".toList).flatten ↔
        (∀ p ∈ e.Path, p ≠ [] ∧ NoSurroundingSpace p) ∨ e.Path = [[]]) ∧
      (mapIndex m "host".toList =
          (((e.Host.map stringsTrimSpace).filter (fun p => p ≠ [])).intersperse
            ",".toList).flatten ↔
        (∀ p ∈ e.Host, p ≠ [] ∧ NoSurroundingSpace p) ∨ e.Host = [[]]) := by
  obtain ⟨m, hm, -, -, -, h3, h4, h5, -⟩ := mapIndex_encode e
  have key : ∀ (v : GoString) (xs : List GoString), v = stringsJoin xs [','] →
      (v = (((xs.map stringsTrimSpace).filter (fun p => p ≠ [])).intersperse
            ",".toList).flatten ↔
        (∀ p ∈ xs, p ≠ [] ∧ NoSurroundingSpace p) ∨ xs = [[]]) := by
    intro v xs hv
    rw [hv, ← stringsJoin_trimmedEntries_eq_iff xs ',', ← stringsJoin_eq_flatten]
    exact eq_comm
  refine ⟨m, hm, ?_, ?_, ?_, key _ _ h3, key _ _ h4, key _ _ h5⟩
  · rw [h3]
    exact stringsJoin_eq_flatten _ _
  · rw [h4]
    exact stringsJoin_eq_flatten _ _
  · rw [h5]
    exact stringsJoin_eq_flatten _ _

/-- C9, amended, at two endpoints with several entries in each sequence field.
At `cleanEndpoint`, whose entries are non-empty and without surrounding white
space, the values are the entries with the commas between them and equal the
comma-join of the trimmed non-empty entries. At `sampleEndpoint`, with padded,
blank and empty entries, the values keep the padding and the empty entries and
differ from the comma-join of the trimmed non-empty entries. -/
theorem encode_sequence_values_witness :
    (∃ m, Encode (some cleanEndpoint) = some m ∧
      mapIndex m "method".toList = "GET,POST".toList ∧
      mapIndex m "path".toList = "/greeter,/hello,/bye".toList ∧
      mapIndex m "host".toList = "example.com,example.org".toList ∧
      mapIndex m "method".toList =
        (((cleanEndpoint.Method.map stringsTrimSpace).filter (fun p => p ≠ [])).intersperse
          ",".toList).flatten ∧
      mapIndex m "path".toList =
        (((cleanEndpoint.Path.map stringsTrimSpace).filter (fun p => p ≠ [])).intersperse
          ",".toList).flatten ∧
      mapIndex m "host".toList =
        (((cleanEndpoint.Host.map stringsTrimSpace).filter (fun p => p ≠ [])).intersperse
          ",".toList).flatten) ∧
    ∃ m, Encode (some sampleEndpoint) = some m ∧
      mapIndex m "method".toList = "GET, POST".toList ∧
      mapIndex m "path".toList = "/greeter,  ,/hello ".toList ∧
      mapIndex m "host".toList = " example.com ,".toList ∧
      mapIndex m "method".toList ≠
        (((sampleEndpoint.Method.map stringsTrimSpace).filter (fun p => p ≠ [])).intersperse
          ",".toList).flatten ∧
      mapIndex m "path".toList ≠
        (((sampleEndpoint.Path.map stringsTrimSpace).filter (fun p => p ≠ [])).intersperse
          ",".toList).flatten ∧
      mapIndex m "host".toList ≠
        (((sampleEndpoint.Host.map stringsTrimSpace).filter (fun p => p ≠ [])).intersperse
          ",".toList).flatten :=
  ⟨(encode_sequence_values cleanEndpoint).imp fun _ h =>
      ⟨h.1, h.2.1, h.2.2.1, h.2.2.2.1,
        h.2.2.2.2.1.mpr (Or.inl (by decide)),
        h.2.2.2.2.2.1.mpr (Or.inl (by decide)),
        h.2.2.2.2.2.2.mpr (Or.inl (by decide))⟩,
    (encode_sequence_values sampleEndpoint).imp fun _ h =>
      ⟨h.1, h.2.1, h.2.2.1, h.2.2.2.1,
        fun heq => absurd (h.2.2.2.2.1.mp heq) (by decide),
        fun heq => absurd (h.2.2.2.2.2.1.mp heq) (by decide),
        fun heq => absurd (h.2.2.2.2.2.2.mp heq) (by decide)⟩⟩

/-- C10: for a present map `m`, each of the Method, Path and Host of `Decode m`
is sliced from the value of `m` under `method`, `path` and `host`: its
elements are, in the order of the comma-separated pieces of that value, the
trimmed forms of the pieces that are not white space only, and every element is
non-empty, has no leading or trailing white space and contains no comma. -/
theorem decode_sequence_elements (m : Metadata) :
    ∃ d, Decode (some m) = some d ∧
      SlicedFrom (mapIndex m "method".toList) d.Method ∧
      SlicedFrom (mapIndex m "path".toList) d.Path ∧
      SlicedFrom (mapIndex m "host".toList) d.Host :=
  ⟨_, rfl, slicedFrom_slice _, slicedFrom_slice _, slicedFrom_slice _⟩

/-! ## Lemmas on the round trip -/

theorem decode_encode_slice (e : Endpoint) :
    Decode (Encode (some e)) = some
      { Name := e.Name, Description := e.Description, Handler := e.Handler,
        Host := slice (stringsJoin e.Host [',']),
        Method := slice (stringsJoin e.Method [',']),
        Path := slice (stringsJoin e.Path [',']) } := by
  obtain ⟨m, hm, -, h1, h2, h3, h4, h5, h6⟩ := mapIndex_encode e
  rw [hm]
  simp only [Decode, h1, h2, h3, h4, h5, h6]

theorem slice_stringsJoin_ne (xs : List GoString) (h : ∃ p ∈ xs, ',' ∈ p) :
    slice (stringsJoin xs [',']) ≠ xs := by
  intro heq
  obtain ⟨p, hp, hc⟩ := h
  rw [← heq] at hp
  exact ((slicedFrom_slice _).2.2.2 p hp).2.2 hc

theorem slice_stringsJoin_of_clean (xs : List GoString) (hc : ∀ p ∈ xs, ',' ∉ p)
    (h : ∀ p ∈ xs, p ≠ [] ∧ NoSurroundingSpace p) :
    slice (stringsJoin xs [',']) = xs := by
  rw [slice_stringsJoin xs hc, trimmedEntries_of_clean xs h]

theorem slice_stringsJoin_slice (v : GoString) :
    slice (stringsJoin (slice v) [',']) = slice v :=
  slice_stringsJoin_of_clean (slice v)
    (fun p hp => ((slicedFrom_slice v).2.2.2 p hp).2.2)
    (fun p hp => ⟨((slicedFrom_slice v).2.2.2 p hp).1, ((slicedFrom_slice v).2.2.2 p hp).2.1⟩)

/-! ## The codec: commas, and decoding as a normal form (C11, C16) -/

/-- C11: for a present endpoint `e`, in each of Host, Method and Path that has
an entry with a comma, `Decode (Encode e)` differs from `e`; and `Encode` does
not tell the Path `["a,b"]` from the Path `["a", "b"]`: the two endpoints
`commaPathEndpoint` and `splitPathEndpoint` have different Path sequences and
the same `Encode` result. -/
theorem decode_encode_comma_lossy (e : Endpoint) :
    (∃ d, Decode (Encode (some e)) = some d ∧
      ((∃ p ∈ e.Host, ',' ∈ p) → d.Host ≠ e.Host) ∧
      ((∃ p ∈ e.Method, ',' ∈ p) → d.Method ≠ e.Method) ∧
      ((∃ p ∈ e.Path, ',' ∈ p) → d.Path ≠ e.Path)) ∧
    commaPathEndpoint.Path ≠ splitPathEndpoint.Path ∧
    Encode (some commaPathEndpoint) = Encode (some splitPathEndpoint) := by
  refine ⟨⟨_, decode_encode_slice e, ?_, ?_, ?_⟩, by decide, by decide⟩
  · exact slice_stringsJoin_ne e.Host
  · exact slice_stringsJoin_ne e.Method
  · exact slice_stringsJoin_ne e.Path

/-- C11 at `commaPathEndpoint`, whose one Path entry `a,b` comes back as the
two entries `a` and `b`. -/
theorem decode_encode_comma_lossy_witness :
    (∃ p ∈ commaPathEndpoint.Path, ',' ∈ p) ∧
    ∃ d, Decode (Encode (some commaPathEndpoint)) = some d ∧
      d.Path ≠ commaPathEndpoint.Path ∧ d.Path = ["a".toList, "b".toList] :=
  ⟨by decide,
    (decode_encode_comma_lossy commaPathEndpoint).1.imp fun _ h =>
      ⟨h.1, h.2.2.2 (by decide), by
        have h1 := h.1
        rw [decode_encode_slice] at h1
        rw [← Option.some.inj h1]
        decide⟩⟩

/-- C16: for a present map `m`, `Decode (Encode (Decode m))` is `Decode m`, the
same endpoint in all six fields. -/
theorem decode_encode_decode (m : Metadata) :
    Decode (Encode (Decode (some m))) = Decode (some m) := by
  show Decode (Encode (some _)) = some _
  rw [decode_encode_slice]
  simp only [slice_stringsJoin_slice]

/-! ## The validator reads Name, Path and Handler only (C15) -/

/-- C15: two present endpoints with the same Name, Handler and Path get the
same result from `Validate`, the nil error for both or the same error for both,
whatever their Method, Host and Description are. -/
theorem validate_ignores_method_host {ε ρ : Type} (compilePOSIX : GoString → Except ε ρ)
    (e₁ e₂ : Endpoint) (hName : e₁.Name = e₂.Name) (hHandler : e₁.Handler = e₂.Handler)
    (hPath : e₁.Path = e₂.Path) :
    Validate compilePOSIX (some e₁) = Validate compilePOSIX (some e₂) := by
  simp only [Validate, hName, hHandler, hPath]

/-- C15 at `sampleEndpoint` and `oddMethodHostEndpoint`, which has the
misspelled verb `GETT` and the host `not a host!`: both are accepted. -/
theorem validate_ignores_method_host_witness :
    sampleEndpoint.Name = oddMethodHostEndpoint.Name ∧
    sampleEndpoint.Handler = oddMethodHostEndpoint.Handler ∧
    sampleEndpoint.Path = oddMethodHostEndpoint.Path ∧
    sampleEndpoint.Method ≠ oddMethodHostEndpoint.Method ∧
    sampleEndpoint.Host ≠ oddMethodHostEndpoint.Host ∧
    Validate sampleCompilePOSIX (some sampleEndpoint)
      = Validate sampleCompilePOSIX (some oddMethodHostEndpoint) ∧
    Validate sampleCompilePOSIX (some oddMethodHostEndpoint) = none :=
  ⟨rfl, rfl, rfl, by decide, by decide,
    validate_ignores_method_host sampleCompilePOSIX sampleEndpoint oddMethodHostEndpoint
      rfl rfl rfl,
    by decide⟩

/-! ## Lemmas on the verb builders -/

theorem decode_encode_verbEndpoint (verb path name : GoString)
    (hv : verb ≠ [] ∧ ',' ∉ verb ∧ NoSurroundingSpace verb)
    (hp : path ≠ [] ∧ ',' ∉ path ∧ NoSurroundingSpace path) :
    Decode (Encode (some (verbEndpoint verb path name)))
      = some (verbEndpoint verb path name) := by
  have clean : ∀ x : GoString, x ≠ [] ∧ ',' ∉ x ∧ NoSurroundingSpace x →
      slice (stringsJoin [x] [',']) = [x] := by
    intro x hx
    apply slice_stringsJoin_of_clean
    · intro q hq
      rw [List.mem_singleton.mp hq]
      exact hx.2.1
    · intro q hq
      rw [List.mem_singleton.mp hq]
      exact ⟨hx.1, hx.2.2⟩
  have hnil : slice (stringsJoin [] [',']) = [] := by decide
  rw [decode_encode_slice]
  simp only [verbEndpoint, clean verb hv, clean path hp, hnil]

theorem mem_verbBuilders (vb : GoString ×
    (GoString → GoString → Except GoPanic HandlerOption) ×
    (Option HttpHandlers → GoString → GoString → Except GoPanic HttpHandlers))
    (h : vb ∈ verbBuilders) :
    vb = ("GET".toList, GET, HttpHandlers.GET) ∨ vb = ("POST".toList, POST, HttpHandlers.POST) ∨
    vb = ("PUT".toList, PUT, HttpHandlers.PUT) ∨
    vb = ("PATCH".toList, PATCH, HttpHandlers.PATCH) ∨
    vb = ("DELETE".toList, DELETE, HttpHandlers.DELETE) := by
  simpa [verbBuilders] using h

/-- Each builder returns the option of `WithEndpoint` on its endpoint, and each
collection method appends that option to a present collection. -/
theorem verbBuilders_eval (vb : GoString ×
    (GoString → GoString → Except GoPanic HandlerOption) ×
    (Option HttpHandlers → GoString → GoString → Except GoPanic HttpHandlers))
    (h : vb ∈ verbBuilders) (path name : GoString) :
    (vb.1 ≠ [] ∧ ',' ∉ vb.1 ∧ NoSurroundingSpace vb.1) ∧
    vb.2.1 path name = .ok (serverEndpointMetadata name
      (Encode (some (verbEndpoint vb.1 path name)))) ∧
    (∀ r : HttpHandlers, vb.2.2 (some r) path name = .ok (r ++ [serverEndpointMetadata name
      (Encode (some (verbEndpoint vb.1 path name)))])) ∧
    vb.2.2 none path name = .error .nilPointerDereference := by
  rcases mem_verbBuilders vb h with rfl | rfl | rfl | rfl | rfl
  all_goals exact ⟨by decide, rfl, fun _ => rfl, rfl⟩

/-! ## The verb builders and the option collection (C12, C13, C14, C17) -/

/-- C12: for each of the verbs GET, POST, PUT, PATCH and DELETE and every path
and name, the builder returns the option that attaches, under `name`, the map
`Encode` of the endpoint with that Name, the one Path entry `path`, the one
Method entry the verb and the Handler `rpc`; in that map `endpoint` is `name`,
`method` the verb, `path` the path, `handler` is `rpc`, `host` and
`description` are empty; and when `path` is non-empty, without comma and
without surrounding white space, `Decode` of that map is that endpoint. -/
theorem verb_builder_metadata (path name : GoString) :
    ∀ vb ∈ verbBuilders, ∃ md,
      vb.2.1 path name = .ok (serverEndpointMetadata name (some md)) ∧
      Encode (some { Name := name, Description := [], Handler := "rpc".toList, Host := [],
                     Method := [vb.1], Path := [path] }) = some md ∧
      mapIndex md "endpoint".toList = name ∧
      mapIndex md "method".toList = vb.1 ∧
      mapIndex md "path".toList = path ∧
      mapIndex md "handler".toList = "rpc".toList ∧
      mapIndex md "host".toList = [] ∧
      mapIndex md "description".toList = [] ∧
      (path ≠ [] → ',' ∉ path → NoSurroundingSpace path →
        Decode (some md) = some
          { Name := name, Description := [], Handler := "rpc".toList, Host := [],
            Method := [vb.1], Path := [path] }) := by
  intro vb hvb
  obtain ⟨hverb, hbuild, -, -⟩ := verbBuilders_eval vb hvb path name
  refine ⟨_, hbuild, rfl, rfl, rfl, rfl, rfl, rfl, rfl, ?_⟩
  intro h1 h2 h3
  exact decode_encode_verbEndpoint vb.1 path name hverb ⟨h1, h2, h3⟩

/-- C12 at `GET("/greeter/", "Greeter.Hello")`: the decoded metadata is
`greeterEndpoint`, with Method `["GET"]`, Path `["/greeter/"]`, Handler `rpc`
and Name `Greeter.Hello`. -/
theorem verb_builder_metadata_witness :
    "/greeter/".toList ≠ [] ∧ ',' ∉ "/greeter/".toList ∧
    NoSurroundingSpace "/greeter/".toList ∧
    ∃ md, GET "/greeter/".toList "Greeter.Hello".toList
        = .ok (serverEndpointMetadata "Greeter.Hello".toList (some md)) ∧
      Decode (some md) = some greeterEndpoint :=
  ⟨by decide, by decide, by decide,
    (verb_builder_metadata "/greeter/".toList "Greeter.Hello".toList
      ("GET".toList, GET, HttpHandlers.GET) (List.mem_cons_self _ _)).imp fun _ h =>
      ⟨h.1, h.2.2.2.2.2.2.2.2 (by decide) (by decide) (by decide)⟩⟩

/-- C13: for a present collection `r` and each of the five verbs, the method
returns normally and the collection becomes `r` followed by the option of the
builder: its length is one more, its first `r.length` elements are those of
`r` in place, its last element is the option. So POST("/a", "A") then
GET("/b", "B") on the collection of `NewHttpRouters` give the two options in
that order. -/
theorem collection_append (r : HttpHandlers) (path name : GoString) :
    (∀ vb ∈ verbBuilders, ∃ o r', vb.2.1 path name = .ok o ∧
      vb.2.2 (some r) path name = .ok r' ∧
      r' = r ++ [o] ∧ r'.length = r.length + 1 ∧ r'.take r.length = r ∧
      r'.getLast? = some o) ∧
    ∃ a b r₁ r₂, POST "/a".toList "A".toList = .ok a ∧ GET "/b".toList "B".toList = .ok b ∧
      HttpHandlers.POST (some NewHttpRouters) "/a".toList "A".toList = .ok r₁ ∧
      HttpHandlers.GET (some r₁) "/b".toList "B".toList = .ok r₂ ∧ r₂ = [a, b] := by
  constructor
  · intro vb hvb
    obtain ⟨-, hbuild, happend, -⟩ := verbBuilders_eval vb hvb path name
    refine ⟨_, _, hbuild, happend r, rfl, ?_, ?_, ?_⟩
    · simp
    · simp
    · simp
  · exact ⟨_, _, _, _, rfl, rfl, rfl, rfl, rfl⟩

/-- C14 on the code: through the nil receiver each of the five methods panics
with a nil pointer dereference, for every path and name, the guarded
assignment `*r = make(...)` writing through the nil pointer; through a present
receiver whose collection is empty the call returns normally and the
collection holds the one option of the builder. -/
theorem collection_nil_receiver_panics :
    ∀ (path name : GoString), ∀ vb ∈ verbBuilders,
      vb.2.2 none path name = .error .nilPointerDereference ∧
      ∃ o, vb.2.1 path name = .ok o ∧ vb.2.2 (some []) path name = .ok [o] := by
  intro path name vb hvb
  obtain ⟨-, hbuild, happend, hnil⟩ := verbBuilders_eval vb hvb path name
  exact ⟨hnil, _, hbuild, happend []⟩

/-- C14 on the code, at the nil receiver with `POST("/a", "A")`: the call
panics. -/
theorem collection_nil_receiver_panics_witness :
    ("POST".toList, POST, HttpHandlers.POST) ∈ verbBuilders ∧
    HttpHandlers.POST none "/a".toList "A".toList = .error .nilPointerDereference :=
  ⟨List.mem_cons_of_mem _ (List.mem_cons_self _ _),
    (collection_nil_receiver_panics "/a".toList "A".toList
      ("POST".toList, POST, HttpHandlers.POST)
      (List.mem_cons_of_mem _ (List.mem_cons_self _ _))).1⟩

/-- C17: for a present endpoint `e`, `WithEndpoint` returns the option that
attaches `Encode e` under the Name of `e`; for the nil endpoint it panics with
a nil pointer dereference, while `Encode` of the nil endpoint is the nil map;
each of the five builders returns an option for every path and name, among
them the empty name and the path `(`, which the validator would reject. -/
theorem withEndpoint_present_only :
    (∀ e : Endpoint,
      WithEndpoint (some e) = .ok (serverEndpointMetadata e.Name (Encode (some e)))) ∧
    WithEndpoint none = .error .nilPointerDereference ∧
    Encode none = none ∧
    (∀ (path name : GoString), ∀ vb ∈ verbBuilders, ∃ o, vb.2.1 path name = .ok o) ∧
    (∃ o, POST "(".toList [] = .ok o) ∧
    Validate sampleCompilePOSIX (some (verbEndpoint "POST".toList "(".toList [])) ≠ none := by
  refine ⟨fun _ => rfl, rfl, rfl, ?_, ⟨_, rfl⟩, by decide⟩
  intro path name vb hvb
  exact ⟨_, (verbBuilders_eval vb hvb path name).2.1⟩

end Api
